import Mathlib

/-!
# Verification of genomeshader's alignment decomposition and staging pipeline

Shallow embedding of the core of `broadinstitute/genomeshader`:

* `src/alignment.rs` — `extract_reads`: decomposition of one BAM record's
  CIGAR edit script into typed rows plus a column-width mask;
* `src/stage.rs` — `stage_data_from_all_files`, `write_to_disk`,
  `locus_should_be_fetched`, `stage_data`: the parallel fetch/merge/cache
  pipeline;
* `src/lib.rs` — `request_cache_file`, `gcs_cache_uri_for_reads_request`,
  `parse_locus`.

Machine integers (`u32`/`u64` positions and lengths) are modelled as `Nat`;
where the Rust code can underflow/overflow (checked arithmetic panics in
debug builds) the model either guards explicitly (`parse_locus`) or the
theorems carry the no-underflow bound as a hypothesis.  Out-of-range read
sequence indexing (which panics in Rust) is modelled totally via `List.getD`;
theorems about emitted sequences carry in-bounds hypotheses.
-/

namespace Genomeshader

/-- `ElementType` from src/alignment.rs (READ | DIFF | INSERTION | DELETION |
SOFTCLIP). -/
inductive ElementType
  | READ
  | DIFF
  | INSERTION
  | DELETION
  | SOFTCLIP
deriving DecidableEq, Repr

/-- `ElementType::to_u8` from src/alignment.rs. -/
def ElementType.to_u8 : ElementType → Nat
  | .READ => 0
  | .DIFF => 1
  | .INSERTION => 2
  | .DELETION => 3
  | .SOFTCLIP => 4

/-- One CIGAR operation (`rust_htslib::bam::record::Cigar`), with its
`u32` length as a `Nat`. -/
inductive Cigar
  | Match (len : Nat)
  | Ins (len : Nat)
  | Del (len : Nat)
  | RefSkip (len : Nat)
  | SoftClip (len : Nat)
  | HardClip (len : Nat)
  | Pad (len : Nat)
  | Equal (len : Nat)
  | Diff (len : Nat)
deriving DecidableEq, Repr

/-- The length field of a CIGAR operation. -/
def Cigar.len : Cigar → Nat
  | .Match l | .Ins l | .Del l | .RefSkip l | .SoftClip l
  | .HardClip l | .Pad l | .Equal l | .Diff l => l

/-- Reference bases consumed by one CIGAR operation (M, =, X, D, N consume
reference; the code advances `ref_pos` by the length exactly for these). -/
def Cigar.refConsumed : Cigar → Nat
  | .Match l | .Equal l | .Diff l | .Del l | .RefSkip l => l
  | _ => 0

/-- Query (read) bases consumed by one CIGAR operation (M, I, S, =, X). -/
def Cigar.queryConsumed : Cigar → Nat
  | .Match l | .Ins l | .SoftClip l | .Equal l | .Diff l => l
  | _ => 0

/-- Total reference span of an edit script: the htslib quantity
`reference_end() - reference_start()` for a mapped record. -/
def refLen (cigar : List Cigar) : Nat :=
  (cigar.map Cigar.refConsumed).sum

/-- Total query bases consumed by an edit script. -/
def queryLen (cigar : List Cigar) : Nat :=
  (cigar.map Cigar.queryConsumed).sum

/-- One alignment record as `extract_reads` consumes it: 0-based reference
start (`record.reference_start()`), the CIGAR edit script, the raw read
sequence (`record.seq()`), the reverse-strand flag, query name, the resolved
`HP` integer tag (0 when absent, per the `match record.aux(b"HP")` fallback),
and the `RG` string tag when present. -/
structure BamRecord where
  pos : Nat
  cigar : List Cigar
  seq : List Char
  isReverse : Bool
  qname : String
  hp : Int
  rg : Option String
deriving DecidableEq, Repr

/-- `record.reference_end()` (rust_htslib `BamRecordExtensions`): 0-based
exclusive end = `pos` plus the reference length consumed by the CIGAR. -/
def BamRecord.referenceEnd (r : BamRecord) : Nat :=
  r.pos + refLen r.cigar

/-- One output row of the table built by `extract_reads` (the per-row subset
of the column vectors pushed in src/alignment.rs; `chunk`, `cohort` and
`bam_path` are constant per call and added at the end). -/
structure Row where
  refContig : String
  refStart : Nat
  refEnd : Nat
  isForward : Bool
  qname : String
  hp : Int
  rg : String
  sm : String
  etype : ElementType
  seq : String
deriving DecidableEq, Repr

/-- Length of a non-Read element as the column-width mask measures it:
a Deletion's reference span, any other element's sequence length. -/
def elemLen (r : Row) : Nat :=
  if r.etype = ElementType.DELETION then r.refEnd - r.refStart else r.seq.length

/-- The running cursors of the per-record CIGAR walk: `ref_pos` (next
unconsumed reference coordinate, 1-based) and `read_pos` (next unconsumed
read coordinate, 1-based). -/
structure St where
  refPos : Nat
  readPos : Nat
deriving DecidableEq, Repr

/-- The per-record constant fields used to build each row (contig, strand,
query name, haplotype tag, resolved read group and sample name). -/
structure RowCtx where
  contig : String
  isForward : Bool
  qname : String
  hp : Int
  rg : String
  sm : String
deriving DecidableEq, Repr

/-- `record.seq()[i]`: the read base at 0-based offset `i`.  Rust panics out
of range; the model totalises with a placeholder base. -/
def charAt (seq : List Char) (i : Nat) : Char :=
  seq.getD i 'N'

/-- `&record.seq().as_bytes()[a..b]`: the read slice for an insertion.
Rust panics when `b` exceeds the sequence length; the model truncates. -/
def sliceSeq (seq : List Char) (a b : Nat) : List Char :=
  (seq.drop a).take (b - a)

/-- Build a row from the per-record context. -/
def mkRow (ctx : RowCtx) (et : ElementType) (rs re : Nat) (sq : String) : Row :=
  { refContig := ctx.contig, refStart := rs, refEnd := re,
    isForward := ctx.isForward, qname := ctx.qname, hp := ctx.hp,
    rg := ctx.rg, sm := ctx.sm, etype := et, seq := sq }

/-- The soft-clip inner loop of src/alignment.rs (`for _ in 0..*len`): one
SOFTCLIP row per clipped base at `adj_ref_pos`, each of one read base, with
the mask entry keyed at the (fixed) current `ref_pos` cursor; `read_pos` and
`adj_ref_pos` advance by 1 per base. -/
def softclipLoop (ctx : RowCtx) (seq : List Char) (cursor : Nat) :
    Nat → Nat → Nat → List Row × List (Nat × Nat)
  | _, _, 0 => ([], [])
  | adj, rp, len + 1 =>
    let base := String.mk [charAt seq (rp - 1)]
    let row := mkRow ctx ElementType.SOFTCLIP adj (adj + 1) base
    let rest := softclipLoop ctx seq cursor (adj + 1) (rp + 1) len
    (row :: rest.1, (cursor, 1) :: rest.2)

/-- Processing of one CIGAR operation (the `match c` block of
src/alignment.rs lines 154–301): the rows pushed, the column-width mask
updates `(key, value)` performed, and the updated cursors.  `isFirst` is the
`idx == 0` test used by the soft-clip arm. -/
def opRowsUpdates (ctx : RowCtx) (seq : List Char) (isFirst : Bool) (st : St) :
    Cigar → List Row × List (Nat × Nat) × St
  | .Match len => ([], [], ⟨st.refPos + len, st.readPos + len⟩)
  | .Ins len =>
    let cigarSeq := sliceSeq seq (st.readPos - 1) (st.readPos + len - 1)
    let row := mkRow ctx ElementType.INSERTION (st.refPos - 1) st.refPos
      (String.mk cigarSeq)
    ([row], [(st.refPos - 1, cigarSeq.length)], ⟨st.refPos, st.readPos + len⟩)
  | .Del len =>
    let row := mkRow ctx ElementType.DELETION st.refPos (st.refPos + len) ""
    ([row], [(st.refPos, len)], ⟨st.refPos + len, st.readPos⟩)
  | .Equal len => ([], [], ⟨st.refPos + len, st.readPos + len⟩)
  | .Diff len =>
    let base := String.mk [charAt seq (st.readPos - 1)]
    let row := mkRow ctx ElementType.DIFF st.refPos (st.refPos + 1) base
    ([row], [(st.refPos, 1)], ⟨st.refPos + len, st.readPos + len⟩)
  | .RefSkip len => ([], [], ⟨st.refPos + len, st.readPos⟩)
  | .SoftClip len =>
    let adj := if isFirst then st.refPos - len else st.refPos
    let out := softclipLoop ctx seq st.refPos adj st.readPos len
    (out.1, out.2, ⟨st.refPos, st.readPos + len⟩)
  | .HardClip _ => ([], [], st)
  | .Pad _ => ([], [], st)

/-- The full CIGAR walk (`for (idx, c) in record.cigar().iter().enumerate()`):
rows and mask updates of each operation concatenated in order. -/
def processOps (ctx : RowCtx) (seq : List Char) :
    Nat → St → List Cigar → List Row × List (Nat × Nat) × St
  | _, st, [] => ([], [], st)
  | idx, st, c :: cs =>
    let o := opRowsUpdates ctx seq (idx == 0) st c
    let rest := processOps ctx seq (idx + 1) o.2.2 cs
    (o.1 ++ rest.1, o.2.1 ++ rest.2.1, rest.2.2)

/-- The synthetic whole-read row pushed first for each record
(src/alignment.rs lines 133–149): 1-based start, htslib `reference_end`,
empty sequence. -/
def readRowOf (ctx : RowCtx) (rec : BamRecord) : Row :=
  mkRow ctx ElementType.READ (rec.pos + 1) rec.referenceEnd ""

/-- All rows and mask updates produced for one record: the Read row followed
by the element rows of the CIGAR walk, starting from
`ref_pos = reference_start + 1`, `read_pos = 1`. -/
def recordRows (ctx : RowCtx) (rec : BamRecord) : List Row × List (Nat × Nat) :=
  let out := processOps ctx rec.seq 0 ⟨rec.pos + 1, 1⟩ rec.cigar
  (readRowOf ctx rec :: out.1, out.2.1)

/-- Read-group/sample resolution for one record (src/alignment.rs lines
140–146): a missing `RG` tag falls back to `("unknown", "unknown")`; a
present tag looks the read group up in the header map and `unwrap`s, so a
missing mapping panics (`none`). -/
def resolveRGSM (rgSmMap : List (String × String)) :
    Option String → Option (String × String)
  | none => some ("unknown", "unknown")
  | some rg =>
    match rgSmMap.lookup rg with
    | some sm => some (rg, sm)
    | none => none

/-- One mask update, `mask.entry(k).and_modify(|e| *e = max(*e, v)).or_insert(v)`. -/
def maskAdd (m : Nat → Option Nat) (k v : Nat) : Nat → Option Nat :=
  fun x => if x = k then
    match m k with
    | some e => some (max e v)
    | none => some v
  else m x

/-- The column-width mask after applying a list of updates in order to the
initially empty `HashMap`. -/
def maskOf (updates : List (Nat × Nat)) : Nat → Option Nat :=
  updates.foldl (fun m kv => maskAdd m kv.1 kv.2) (fun _ => none)

/-- `*mask.get(ref_start).unwrap_or(&1)`: the column width recorded for a
reference position. -/
def maskLookup (m : Nat → Option Nat) (p : Nat) : Nat :=
  (m p).getD 1

/-- The record loop of `extract_reads` (src/alignment.rs lines 125–303),
with the read-group→sample map from the header: per record, resolve metadata
(panicking — `none` — exactly when the code's `unwrap` does) and collect the
record's rows and mask updates, in record order. -/
def extractBlocks (rgSmMap : List (String × String)) (contig : String) :
    List BamRecord → Option (List (List Row × List (Nat × Nat)))
  | [] => some []
  | rec :: rest =>
    match resolveRGSM rgSmMap rec.rg with
    | none => none
    | some rgsm =>
      match extractBlocks rgSmMap contig rest with
      | none => none
      | some bs =>
        some (recordRows ⟨contig, !rec.isReverse, rec.qname, rec.hp,
          rgsm.1, rgsm.2⟩ rec :: bs)

/-- `extract_reads` assembled: rows of all records in record order, the mask
over all updates, and the post-hoc `column_width` annotation per row. -/
def extract_reads (rgSmMap : List (String × String)) (contig : String)
    (recs : List BamRecord) : Option (List (Row × Nat)) :=
  match extractBlocks rgSmMap contig recs with
  | none => none
  | some blocks =>
    let rows := (blocks.map Prod.fst).flatten
    let updates := (blocks.map Prod.snd).flatten
    let mask := maskOf updates
    some (rows.map (fun r => (r, maskLookup mask r.refStart)))

/-! ## Staging pipeline (src/stage.rs) -/

/-- A genomic locus `(chr, start, stop)` as staged. -/
structure Locus where
  chr : String
  start : Nat
  stop : Nat
deriving DecidableEq, Repr

/-- The per-locus parquet filename written by `write_to_disk` and probed by
`locus_should_be_fetched`: `cache_path.join(format!("{}_{}_{}.parquet", ...))`. -/
def cacheFileName (cache_path : String) (l : Locus) : String :=
  cache_path ++ "/" ++ l.chr ++ "_" ++ Nat.repr l.start ++ "_" ++
    Nat.repr l.stop ++ ".parquet"

/-- One cached parquet artifact on disk: its path and the set of values of
its `bam_path` column. -/
structure CacheFile where
  name : String
  bamPaths : List String
deriving DecidableEq, Repr

/-- `locus_should_be_fetched` (src/stage.rs lines 109–136): fetch when the
per-locus cache file does not exist, or when the file's `bam_path` set is not
contained in the requested sources' paths (the intersection-size test);
otherwise the cached file is considered fresh. -/
def locus_should_be_fetched (cache_path : String) (l : Locus)
    (reads_paths : List (String × String)) (fs : List CacheFile) : Bool :=
  match fs.find? (fun f => f.name == cacheFileName cache_path l) with
  | none => true
  | some f => !(f.bamPaths.all (fun b => reads_paths.any (fun rp => rp.1 == b)))

/-- `stage_data_from_one_file` (src/stage.rs lines 38–50) for an already
open source: extract every locus and vstack the per-locus tables, in locus
iteration order.  The second component is the log of `(source, locus)`
extractions performed. -/
def stage_data_from_one_file {ρ : Type} (fetch : String → Locus → List ρ)
    (url : String) (loci : List Locus) : List ρ × List (String × Locus) :=
  ((loci.map (fetch url)).flatten, loci.map (fun l => (url, l)))

/-- `stage_data_from_all_files` (src/stage.rs lines 52–73), outcome view:
`outcome src` is the result of the bounded-backoff retry loop around
open-and-extract for one source (`none` = still failing after retries are
exhausted).  The code's `match backoff::retry … Err(e) => panic!(…)` aborts
the whole batch on any `none`; a `some` result for every source yields the
per-source tables in source iteration order. -/
def stage_data_from_all_files {σ α : Type} (outcome : σ → Option α)
    (order : List σ) : Option (List α) :=
  order.mapM outcome

/-- The rayon `par_iter().map(…).collect::<Vec<_>>()` of
`stage_data_from_all_files`, scheduling view: each parallel task writes its
result into the slot of its own source index; `sched` is the order in which
tasks complete.  Slots still unwritten hold `none`. -/
def parCollectSlots {σ α : Type} (f : σ → α) (order : List σ)
    (sched : List Nat) : List (Option α) :=
  sched.foldl (fun acc i => acc.set i ((order[i]?).map f))
    (List.replicate order.length none)

/-- The merged table of a staging batch: the per-source tables vstacked in
slot order by `write_to_disk` (src/stage.rs lines 75–79). -/
def mergedRows {σ ρ : Type} (f : σ → List ρ) (order : List σ)
    (sched : List Nat) : List ρ :=
  ((parCollectSlots f order sched).map (fun o => o.getD [])).flatten

/-- `stage_data` (src/stage.rs lines 138–149): fetch every source over every
locus, then `write_to_disk` groups the merged table by `chunk` and writes
one parquet file per locus that received any rows, recording the `bam_path`
values present.  Returns the new filesystem contents and the log of
`(source, locus)` extractions performed.  The prior filesystem `fs` is never
read — `use_cache` is accepted and ignored by the code, and
`locus_should_be_fetched` has no caller here. -/
def stage_data {ρ : Type} (fetch : String → Locus → List ρ)
    (sources : List (String × String)) (loci : List Locus)
    (cache_path : String) (fs : List CacheFile) :
    List CacheFile × List (String × Locus) :=
  let perSource := sources.map (fun sc => stage_data_from_one_file fetch sc.1 loci)
  let log := (perSource.map Prod.snd).flatten
  let written := loci.filter
    (fun l => sources.any (fun sc => !(fetch sc.1 l).isEmpty))
  let newFiles := written.map (fun l =>
    CacheFile.mk (cacheFileName cache_path l)
      ((sources.filter (fun sc => !(fetch sc.1 l).isEmpty)).map Prod.fst))
  (newFiles ++ fs.filter
      (fun f => !(newFiles.any (fun g => g.name == f.name))), log)

/-! ## Cache keys and locus parsing (src/lib.rs) -/

/-- `ordered.sort()` on a `Vec<String>`: the `≤`-sorted permutation of the
path list (lexicographic order; UTF-8 byte order coincides with scalar-value
order). -/
def sortStrings (l : List String) : List String :=
  l.insertionSort (· ≤ ·)

/-- The `DefaultHasher` fold of `request_cache_file`: hash each path of the
sorted list in order, then `finish`.  `hstep` is the opaque hasher
transition, `h0` its initial state. -/
def bamFingerprint (hstep : Nat → String → Nat) (h0 : Nat)
    (bam_paths : List String) : Nat :=
  (sortStrings bam_paths).foldl hstep h0

/-- `Session::request_cache_file` (src/lib.rs lines 157–175):
`{cache_path}/{chr}_{start}_{stop}_{bam_hash}.parquet` where `bam_hash`
is the fingerprint over the sorted path list. -/
def request_cache_file (hstep : Nat → String → Nat) (h0 : Nat)
    (cache_path chr : String) (start stop : Nat)
    (bam_paths : List String) : String :=
  cache_path ++ "/" ++ chr ++ "_" ++ Nat.repr start ++ "_" ++
    Nat.repr stop ++ "_" ++ Nat.repr (bamFingerprint hstep h0 bam_paths) ++
    ".parquet"

/-- `base.trim_end_matches('/')`. -/
def trimEndSlashes (s : String) : String :=
  String.mk ((s.data.reverse.dropWhile (fun c => c == '/')).reverse)

/-- `Session::gcs_cache_uri_for_reads_request` (src/lib.rs lines 195–220):
`None` without a configured cache base, otherwise
`{base}/cache/requests/{chr}_{start}_{stop}_{bam_hash}.parquet` with the
same sorted-path fingerprint. -/
def gcs_cache_uri_for_reads_request (hstep : Nat → String → Nat) (h0 : Nat)
    (base : Option String) (chr : String) (start stop : Nat)
    (bam_paths : List String) : Option String :=
  base.map (fun b =>
    trimEndSlashes b ++ "/cache/requests/" ++ chr ++ "_" ++ Nat.repr start ++
      "_" ++ Nat.repr stop ++ "_" ++
      Nat.repr (bamFingerprint hstep h0 bam_paths) ++ ".parquet")

/-- Result of a `#[pymethods]` call: a value, a raised `PyValueError`, or a
Rust panic (checked-arithmetic underflow/overflow). -/
inductive PyResult (α : Type)
  | ok (val : α)
  | valueError
  | panicked
deriving DecidableEq, Repr

/-- `locus.replace(",", "")`. -/
def stripCommas (s : List Char) : List Char :=
  s.filter (fun c => c != ',')

/-- The separator predicate of `l_fmt.split(|c| c == ':' || c == '-')`. -/
def locusSep (c : Char) : Bool :=
  c == ':' || c == '-'

/-- Rust `str::split` semantics: split at every separator character, keeping
empty parts; the empty input yields one empty part. -/
def splitParts (sep : Char → Bool) : List Char → List (List Char)
  | [] => [[]]
  | c :: cs =>
    let r := splitParts sep cs
    if sep c then [] :: r
    else
      match r with
      | [] => [[c]]
      | p :: ps => (c :: p) :: ps

/-- `parts[k].parse::<u64>()`: an optional leading `+`, then one or more
ASCII digits, and the value must fit in `u64`. -/
def parseU64 (s : List Char) : Option Nat :=
  let digits := match s with
    | '+' :: rest => rest
    | _ => s
  if digits.isEmpty then none
  else if digits.all Char.isDigit then
    let v := digits.foldl (fun a c => a * 10 + (c.toNat - 48)) 0
    if v < 2 ^ 64 then some v else none
  else none

/-- `Session::parse_locus` (src/lib.rs lines 451–501): strip commas, split on
`:` and `-`; two parts parse the centre and expand to
`(chr, start - 1000, start + 1000)` — the `u64` arithmetic panics on
underflow (start < 1000) or overflow; three parts parse start and stop
directly; anything else, or an unparsable number, raises `PyValueError`. -/
def parse_locus (locus : String) : PyResult (String × Nat × Nat) :=
  let l_fmt := stripCommas locus.data
  match splitParts locusSep l_fmt with
  | [chr, sstr] =>
    match parseU64 sstr with
    | none => .valueError
    | some start =>
      if start < 1000 then .panicked
      else if 2 ^ 64 ≤ start + 1000 then .panicked
      else .ok (String.mk chr, start - 1000, start + 1000)
  | [chr, sstr, tstr] =>
    match parseU64 sstr with
    | none => .valueError
    | some start =>
      match parseU64 tstr with
      | none => .valueError
      | some stop => .ok (String.mk chr, start, stop)
  | _ => .valueError

/-! ## Claim theorems -/

/-- C1: the spec requires that one source failing after exhausted retries
must not abort the batch and the successful sources' contributions are still
returned; the code instead hits `panic!` in `stage_data_from_all_files`,
aborting the whole batch even though another source succeeded.  Evaluation
at the failing input: source `"s1"` permanently fails, source `"s2"`
succeeds with a table, yet the batch result is the panic (`none`), not a
merged table. -/
theorem stage_panics_when_one_source_fails :
    stage_data_from_all_files
      (fun s => if s = "s1" then none else some [42]) ["s1", "s2"] = none ∧
    (fun s => if s = "s1" then none else some [42]) "s2" = some [42] := by
  constructor
  · rfl
  · rfl

/-- C6: the spec requires that a record whose read-group tag is present but
unmapped in the header still falls back to "unknown"/"unknown" and never
fails the extraction; the code `unwrap`s the sample lookup and panics.
Evaluation: a record without an `RG` tag extracts fine with both fields
"unknown", while the same record with `RG = "rg1"` and an empty header map
makes `extract_reads` panic (`none`). -/
theorem extract_reads_rg_metadata :
    (extract_reads [] "chr1"
      [⟨100, [Cigar.Match 5], "ACGTT".data, false, "q", 0, none⟩]).isSome = true ∧
    (extract_reads [] "chr1"
      [⟨100, [Cigar.Match 5], "ACGTT".data, false, "q", 0, none⟩]).map
        (fun rows => rows.all (fun rw => rw.1.rg == "unknown" && rw.1.sm == "unknown"))
      = some true ∧
    extract_reads [] "chr1"
      [⟨100, [Cigar.Match 5], "ACGTT".data, false, "q", 0, some "rg1"⟩] = none := by
  refine ⟨rfl, rfl, rfl⟩

/-- C10: `parse_locus` on a two-part locus (after comma removal) expands the
centre to `(chr, P - 1000, P + 1000)` when `P ≥ 1000`; for `P < 1000` the
`u64` subtraction underflows, so the call panics instead of raising the
`PyValueError` used for malformed input. -/
theorem parse_locus_two_part (locus : String) (chrs pstr : List Char) (P : Nat)
    (hsplit : splitParts locusSep (stripCommas locus.data) = [chrs, pstr])
    (hparse : parseU64 pstr = some P)
    (hov : P + 1000 < 2 ^ 64) :
    (1000 ≤ P → parse_locus locus = PyResult.ok (String.mk chrs, P - 1000, P + 1000)) ∧
    (P < 1000 → parse_locus locus = PyResult.panicked) := by
  constructor
  · intro h
    simp only [parse_locus, hsplit, hparse]
    rw [if_neg (Nat.not_lt.mpr h), if_neg (Nat.not_le.mpr hov)]
  · intro h
    simp only [parse_locus, hsplit, hparse]
    rw [if_pos h]

/-- Witness for C10: `"chr1:500"` (centre below 1000) panics; `"chr1:4,000"`
parses to the expanded window `("chr1", 3000, 5000)`. -/
theorem parse_locus_two_part_witness :
    parse_locus "chr1:500" = PyResult.panicked ∧
    parse_locus "chr1:4,000" = PyResult.ok ("chr1", 3000, 5000) := by
  constructor
  · exact (parse_locus_two_part "chr1:500" "chr1".data "500".data 500
      (by decide) (by decide) (by decide)).2 (by decide)
  · exact (parse_locus_two_part "chr1:4,000" "chr1".data "4000".data 4000
      (by decide) (by decide) (by decide)).1 (by decide)

/-- C7 (counterexample): staging the same `(source, locus)` pair twice is
not served from the cache.  After a first `stage_data` call has written the
locus's cache file — and `locus_should_be_fetched` would even report the
file as fresh — a second identical call still performs a fetch (its
extraction log is nonempty), refuting "the second call is answered entirely
from the cache and performs no fetch". -/
theorem stage_data_second_call_fetches_again :
    locus_should_be_fetched "/tmp" ⟨"chr1", 5, 9⟩ [("s1", "all")]
      ((stage_data (fun _ _ => [0]) [("s1", "all")] [⟨"chr1", 5, 9⟩] "/tmp" []).1)
      = false ∧
    ((stage_data (fun _ _ => [0]) [("s1", "all")] [⟨"chr1", 5, 9⟩] "/tmp"
      ((stage_data (fun _ _ => [0]) [("s1", "all")] [⟨"chr1", 5, 9⟩] "/tmp" []).1)).2).length
      = 1 := by
  constructor
  · rfl
  · rfl

/-- C7 (amended): `stage_data` never consults the cache — its extraction log
is the full source × locus product on every call, independent of the
filesystem contents (`locus_should_be_fetched` has no caller on this path),
so a repeated staging call re-fetches everything instead of being served
from the cache. -/
theorem stage_data_always_refetches {ρ : Type} (fetch : String → Locus → List ρ)
    (sources : List (String × String)) (loci : List Locus) (cp : String)
    (fs fs' : List CacheFile) :
    (stage_data fetch sources loci cp fs).2 =
      (sources.map (fun sc => loci.map (fun l => (sc.1, l)))).flatten ∧
    (stage_data fetch sources loci cp fs).2 =
      (stage_data fetch sources loci cp fs').2 := by
  constructor
  · show ((sources.map _).map Prod.snd).flatten = _
    rw [List.map_map]
    rfl
  · rfl

/-- Sorting is invariant under permutation of the input list: two
permutations of the same path multiset have the same sorted form. -/
theorem sortStrings_eq_of_perm {l₁ l₂ : List String} (h : l₁.Perm l₂) :
    sortStrings l₁ = sortStrings l₂ := by
  have h₁ : List.Sorted (· ≤ ·) (sortStrings l₁) := List.sorted_insertionSort _ l₁
  have h₂ : List.Sorted (· ≤ ·) (sortStrings l₂) := List.sorted_insertionSort _ l₂
  exact List.eq_of_perm_of_sorted
    (((List.perm_insertionSort _ l₁).trans h).trans
      (List.perm_insertionSort _ l₂).symm) h₁ h₂

/-- C8: the local cache artifact path and the derived remote cache URI are
invariant under permutation of the bam-path list, for every chromosome,
start, stop, cache base and hasher, because the fingerprint is computed
over the sorted identifiers. -/
theorem request_cache_file_perm_invariant (hstep : Nat → String → Nat)
    (h0 : Nat) (cp chr : String) (start stop : Nat) (base : Option String)
    (l₁ l₂ : List String) (h : l₁.Perm l₂) :
    request_cache_file hstep h0 cp chr start stop l₁ =
      request_cache_file hstep h0 cp chr start stop l₂ ∧
    gcs_cache_uri_for_reads_request hstep h0 base chr start stop l₁ =
      gcs_cache_uri_for_reads_request hstep h0 base chr start stop l₂ := by
  have hs : sortStrings l₁ = sortStrings l₂ := sortStrings_eq_of_perm h
  constructor
  · simp [request_cache_file, bamFingerprint, hs]
  · simp [gcs_cache_uri_for_reads_request, bamFingerprint, hs]

/-- Witness for C8: two orderings of the same two bam paths yield the same
cache path and the same remote URI, for a concrete hasher. -/
theorem request_cache_file_perm_invariant_witness :
    request_cache_file (fun n s => 31 * n + s.length) 0 "/tmp" "chr1" 100 200
        ["gs://b.bam", "gs://a.bam"] =
      request_cache_file (fun n s => 31 * n + s.length) 0 "/tmp" "chr1" 100 200
        ["gs://a.bam", "gs://b.bam"] ∧
    gcs_cache_uri_for_reads_request (fun n s => 31 * n + s.length) 0
        (some "gs://base/") "chr1" 100 200 ["gs://b.bam", "gs://a.bam"] =
      gcs_cache_uri_for_reads_request (fun n s => 31 * n + s.length) 0
        (some "gs://base/") "chr1" 100 200 ["gs://a.bam", "gs://b.bam"] :=
  request_cache_file_perm_invariant (fun n s => 31 * n + s.length) 0
    "/tmp" "chr1" 100 200 (some "gs://base/") _ _
    (List.Perm.swap "gs://a.bam" "gs://b.bam" [])

/-- What the `parCollectSlots` fold has produced at slot `j` after a prefix
of completions: the slot's own value once `j` has completed, the incoming
contents otherwise. -/
theorem parCollectSlots_foldl_getElem {σ α : Type} (f : σ → α)
    (order : List σ) (sched : List Nat) (acc : List (Option α)) (j : Nat) :
    (sched.foldl (fun acc i => acc.set i ((order[i]?).map f)) acc)[j]? =
      if j ∈ sched ∧ j < acc.length then some ((order[j]?).map f)
      else acc[j]? := by
  induction sched generalizing acc with
  | nil => simp
  | cons i rest ih =>
    rw [List.foldl_cons, ih]
    by_cases hlen : j < acc.length
    · by_cases hjr : j ∈ rest
      · rw [if_pos ⟨hjr, by simpa using hlen⟩,
          if_pos ⟨List.mem_cons_of_mem i hjr, hlen⟩]
      · rw [if_neg (by simp [hjr])]
        by_cases hij : i = j
        · subst hij
          rw [List.getElem?_set_self hlen,
            if_pos ⟨List.mem_cons_self i rest, hlen⟩]
        · rw [List.getElem?_set_ne hij,
            if_neg (fun hc =>
              hij (((List.mem_cons.mp hc.1).resolve_right hjr).symm))]
    · have hset : (acc.set i ((order[i]?).map f))[j]? = acc[j]? := by
        by_cases hij : i = j
        · subst hij
          rw [List.getElem?_eq_none (by simpa using Nat.le_of_not_lt hlen),
            List.getElem?_eq_none (Nat.le_of_not_lt hlen)]
        · exact List.getElem?_set_ne hij
      rw [if_neg (by simp [hlen]), if_neg (by simp [hlen]), hset]

/-- C9 (amended, scheduling half): as long as every source task completes
(the completion order `sched` is any permutation of the slot indices), the
collected vector — and hence the merged table — is `order.map f`,
independent of which task finished first. -/
theorem mergedRows_schedule_independent {σ ρ : Type} (f : σ → List ρ)
    (order : List σ) (sched : List Nat)
    (h : sched.Perm (List.range order.length)) :
    parCollectSlots f order sched = order.map (fun a => some (f a)) ∧
    mergedRows f order sched = (order.map f).flatten := by
  have hcol : parCollectSlots f order sched = order.map (fun a => some (f a)) := by
    apply List.ext_getElem?_iff.mpr
    intro j
    unfold parCollectSlots
    rw [parCollectSlots_foldl_getElem]
    by_cases hj : j < order.length
    · have hmem : j ∈ sched := h.mem_iff.mpr (List.mem_range.mpr hj)
      simp [hmem, hj, List.getElem?_eq_getElem hj]
    · have hmem : j ∉ sched := fun hm =>
        hj (List.mem_range.mp (h.mem_iff.mp hm))
      rw [if_neg (by simp [hmem]),
        List.getElem?_eq_none
          (by simpa using Nat.le_of_not_lt hj),
        List.getElem?_eq_none
          (by simpa using Nat.le_of_not_lt hj)]
  refine ⟨hcol, ?_⟩
  unfold mergedRows
  rw [hcol, List.map_map]
  rfl

/-- Witness for C9's amended theorem: two complete schedules (completion
orders) over the same source order produce the identical merged table. -/
theorem mergedRows_schedule_independent_witness :
    mergedRows (fun s => [s]) ["a", "b"] [1, 0] = ["a", "b"] ∧
    mergedRows (fun s => [s]) ["a", "b"] [0, 1] = ["a", "b"] :=
  ⟨(mergedRows_schedule_independent (fun s => [s]) ["a", "b"] [1, 0]
      (by decide)).2,
   (mergedRows_schedule_independent (fun s => [s]) ["a", "b"] [0, 1]
      (by decide)).2⟩

/-- C9 (counterexample): the merged row order is *not* a function of the
declared source set.  The sources are kept in a `HashSet`, whose iteration
order is not the declaration order and varies across runs; two valid
iteration orders of the same two-element source set produce differently
ordered merged tables even with identical (complete, in-order) completion
schedules. -/
theorem mergedRows_depends_on_iteration_order :
    ["a", "b"].Perm ["b", "a"] ∧
    mergedRows (fun s => [s]) ["a", "b"] [0, 1] ≠
      mergedRows (fun s => [s]) ["b", "a"] [0, 1] := by
  constructor
  · exact List.Perm.swap "b" "a" []
  · decide

/-! ### Structure of the CIGAR walk -/

/-- Each operation advances the cursors by exactly its consumed lengths. -/
theorem opRowsUpdates_st (ctx : RowCtx) (seq : List Char) (isFirst : Bool)
    (st : St) (c : Cigar) :
    (opRowsUpdates ctx seq isFirst st c).2.2 =
      ⟨st.refPos + c.refConsumed, st.readPos + c.queryConsumed⟩ := by
  cases c <;> rfl

/-- After a prefix of the walk the cursors are the start cursors advanced by
the prefix's consumed reference/query lengths. -/
theorem processOps_st (ctx : RowCtx) (seq : List Char) (idx : Nat) (st : St)
    (l : List Cigar) :
    (processOps ctx seq idx st l).2.2 =
      ⟨st.refPos + refLen l, st.readPos + queryLen l⟩ := by
  induction l generalizing idx st with
  | nil => simp [processOps, refLen, queryLen]
  | cons c cs ih =>
    simp only [processOps, ih, opRowsUpdates_st, refLen, queryLen,
      List.map_cons, List.sum_cons]
    congr 1 <;> omega

/-- The walk distributes over concatenation of the edit script. -/
theorem processOps_append (ctx : RowCtx) (seq : List Char) (idx : Nat)
    (st : St) (l₁ l₂ : List Cigar) :
    processOps ctx seq idx st (l₁ ++ l₂) =
      ((processOps ctx seq idx st l₁).1 ++
         (processOps ctx seq (idx + l₁.length)
           (processOps ctx seq idx st l₁).2.2 l₂).1,
       (processOps ctx seq idx st l₁).2.1 ++
         (processOps ctx seq (idx + l₁.length)
           (processOps ctx seq idx st l₁).2.2 l₂).2.1,
       (processOps ctx seq (idx + l₁.length)
         (processOps ctx seq idx st l₁).2.2 l₂).2.2) := by
  induction l₁ generalizing idx st with
  | nil => simp [processOps]
  | cons c cs ih =>
    simp only [List.cons_append, processOps, List.append_eq, ih,
      List.length_cons, List.append_assoc]
    rw [show idx + (cs.length + 1) = idx + 1 + cs.length by omega]

/-- Closed form of the soft-clip loop: one single-base SOFTCLIP row per
clipped base, the `i`-th anchored at `adj + i` over read offset
`rp - 1 + i`, with all mask updates keyed at the fixed cursor. -/
theorem softclipLoop_closed (ctx : RowCtx) (seq : List Char) (cursor : Nat)
    (adj rp L : Nat) (hrp : 1 ≤ rp) :
    softclipLoop ctx seq cursor adj rp L =
      ((List.range L).map (fun i =>
         mkRow ctx ElementType.SOFTCLIP (adj + i) (adj + i + 1)
           (String.mk [charAt seq (rp - 1 + i)])),
       List.replicate L (cursor, 1)) := by
  induction L generalizing adj rp with
  | zero => simp [softclipLoop]
  | succ n ih =>
    rw [softclipLoop, ih (adj + 1) (rp + 1) (by omega),
      List.range_succ_eq_map, List.map_cons, List.map_map]
    simp only [Function.comp_def, Nat.add_zero, List.replicate_succ]
    refine congrArg₂ Prod.mk (congrArg₂ List.cons rfl ?_) rfl
    refine List.map_congr_left (fun i _ => ?_)
    have e1 : adj + 1 + i = adj + (i + 1) := by omega
    have e2 : rp + 1 - 1 + i = rp - 1 + (i + 1) := by omega
    rw [e1, e2]

/-! ### C2: reference span of the Read row -/

/-- C2 (amended): the first row emitted for a record is the Read row, and
the sum of reference-consuming operation lengths equals
`reference_end - reference_start` *plus one* — the code stores the 1-based
start but htslib's 0-based exclusive end, so the stored difference
undercounts the span by one. -/
theorem read_row_span (ctx : RowCtx) (rec : BamRecord)
    (h : 1 ≤ refLen rec.cigar) :
    (recordRows ctx rec).1.head? = some (readRowOf ctx rec) ∧
    refLen rec.cigar =
      (readRowOf ctx rec).refEnd - (readRowOf ctx rec).refStart + 1 := by
  refine ⟨rfl, ?_⟩
  simp only [readRowOf, mkRow, BamRecord.referenceEnd]
  omega

/-- Witness for C2's amended theorem at a single 10M record. -/
theorem read_row_span_witness :
    (recordRows ⟨"chr1", true, "q", 0, "unknown", "unknown"⟩
        ⟨100, [Cigar.Match 10], [], false, "q", 0, none⟩).1.head? =
      some (readRowOf ⟨"chr1", true, "q", 0, "unknown", "unknown"⟩
        ⟨100, [Cigar.Match 10], [], false, "q", 0, none⟩) ∧
    refLen [Cigar.Match 10] =
      (readRowOf ⟨"chr1", true, "q", 0, "unknown", "unknown"⟩
          ⟨100, [Cigar.Match 10], [], false, "q", 0, none⟩).refEnd -
        (readRowOf ⟨"chr1", true, "q", 0, "unknown", "unknown"⟩
          ⟨100, [Cigar.Match 10], [], false, "q", 0, none⟩).refStart + 1 :=
  read_row_span ⟨"chr1", true, "q", 0, "unknown", "unknown"⟩
    ⟨100, [Cigar.Match 10], [], false, "q", 0, none⟩ (by decide)

/-- C2 (counterexample): for a `10M` record at position 100 the
reference-consuming sum is 10 but the Read row's
`reference_end - reference_start` is 9, refuting the claimed equality. -/
theorem read_row_span_counterexample :
    refLen [Cigar.Match 10] = 10 ∧
    ((recordRows ⟨"chr1", true, "q", 0, "unknown", "unknown"⟩
        ⟨100, [Cigar.Match 10], [], false, "q", 0, none⟩).1.head?.map
      (fun r => r.refEnd - r.refStart)) = some 9 := by
  constructor
  · rfl
  · rfl

/-! ### C4: soft-clip emission; C5: mismatch emission -/

/-- C4: a soft-clip of length `L` emits exactly `L` SOFTCLIP rows of one
read base each, `read_pos` advancing by 1 per base (the read offsets are
`queryLen pre + i` and the walk resumes at `read_pos + L`); when the clip is
the first operation of the script the `i`-th clipped base sits at
`(alignment start) - L + i` — the positions immediately preceding the
1-based start `rec.pos + 1` — and otherwise the rows start at the current
reference cursor `rec.pos + 1 + refLen pre` and increment by one per base. -/
theorem opRowsUpdates_softclip (ctx : RowCtx) (seq : List Char)
    (isFirst : Bool) (st : St) (L : Nat) (hrp : 1 <= st.readPos) :
    opRowsUpdates ctx seq isFirst st (Cigar.SoftClip L) =
      ((List.range L).map (fun i =>
         mkRow ctx ElementType.SOFTCLIP
           ((if isFirst then st.refPos - L else st.refPos) + i)
           ((if isFirst then st.refPos - L else st.refPos) + i + 1)
           (String.mk [charAt seq (st.readPos - 1 + i)])),
       List.replicate L (st.refPos, 1), ⟨st.refPos, st.readPos + L⟩) := by
  simp only [opRowsUpdates]
  rw [softclipLoop_closed ctx seq st.refPos _ st.readPos L hrp]

theorem softclip_rows (ctx : RowCtx) (rec : BamRecord) (pre post : List Cigar)
    (L : Nat) (hc : rec.cigar = pre ++ Cigar.SoftClip L :: post)
    (hu : pre = [] → L ≤ rec.pos + 1) :
    (recordRows ctx rec).1 =
      readRowOf ctx rec ::
        ((processOps ctx rec.seq 0 ⟨rec.pos + 1, 1⟩ pre).1 ++
         ((List.range L).map (fun i =>
            mkRow ctx ElementType.SOFTCLIP
              ((if pre = [] then rec.pos + 1 - L else rec.pos + 1 + refLen pre) + i)
              ((if pre = [] then rec.pos + 1 - L else rec.pos + 1 + refLen pre) + i + 1)
              (String.mk [charAt rec.seq (queryLen pre + i)])) ++
          (processOps ctx rec.seq (pre.length + 1)
            ⟨rec.pos + 1 + refLen pre, 1 + queryLen pre + L⟩ post).1)) ∧
    (pre = [] → rec.pos + 1 - L + L = rec.pos + 1) := by
  refine ⟨?_, fun hp => by have := hu hp; omega⟩
  unfold recordRows
  rw [hc, processOps_append, processOps_st]
  simp only [Nat.zero_add]
  congr 1
  rw [processOps]
  rw [opRowsUpdates_softclip ctx rec.seq (pre.length == 0)
    ⟨rec.pos + 1 + refLen pre, 1 + queryLen pre⟩ L
    (Nat.le_add_right 1 (queryLen pre))]
  simp only [show (1 : Nat) + queryLen pre - 1 = queryLen pre from by omega,
    List.append_assoc]
  cases pre with
  | nil =>
    simp [refLen, queryLen]
  | cons c cs =>
    have h1 : ((c :: cs : List Cigar).length == 0) = false := rfl
    have h2 : (c :: cs : List Cigar) ≠ [] := by simp
    rw [h1, if_neg h2]
    simp

/-- Witness for C4: a record whose script is a leading 2-base soft clip
followed by 3M — the clipped bases land at positions 99 and 100, right
before the 1-based alignment start 101. -/
theorem softclip_rows_witness :
    (recordRows ⟨"chr1", true, "q", 0, "rg", "sm"⟩
        ⟨100, [Cigar.SoftClip 2, Cigar.Match 3], "ACGTT".data, false, "q", 0, none⟩).1 =
      readRowOf ⟨"chr1", true, "q", 0, "rg", "sm"⟩
          ⟨100, [Cigar.SoftClip 2, Cigar.Match 3], "ACGTT".data, false, "q", 0, none⟩ ::
        ((processOps ⟨"chr1", true, "q", 0, "rg", "sm"⟩ "ACGTT".data 0
            ⟨101, 1⟩ []).1 ++
         ((List.range 2).map (fun i =>
            mkRow ⟨"chr1", true, "q", 0, "rg", "sm"⟩ ElementType.SOFTCLIP
              ((if ([] : List Cigar) = [] then 100 + 1 - 2 else 100 + 1 + refLen []) + i)
              ((if ([] : List Cigar) = [] then 100 + 1 - 2 else 100 + 1 + refLen []) + i + 1)
              (String.mk [charAt "ACGTT".data (queryLen [] + i)])) ++
          (processOps ⟨"chr1", true, "q", 0, "rg", "sm"⟩ "ACGTT".data
            (List.length ([] : List Cigar) + 1)
            ⟨100 + 1 + refLen [], 1 + queryLen [] + 2⟩ [Cigar.Match 3]).1)) ∧
    (([] : List Cigar) = [] → 100 + 1 - 2 + 2 = 100 + 1) :=
  softclip_rows ⟨"chr1", true, "q", 0, "rg", "sm"⟩
    ⟨100, [Cigar.SoftClip 2, Cigar.Match 3], "ACGTT".data, false, "q", 0, none⟩
    [] [Cigar.Match 3] 2 rfl (fun _ => by decide)

/-- C5 (amended): a Difference operation of length `L` emits exactly *one*
DIFF row — width 1, spanning `[ref_pos, ref_pos + 1)`, sequence the single
read base at offset `read_pos - 1` — and then advances both counters by the
full `L`; it does not iterate per consumed base. -/
theorem diff_rows (ctx : RowCtx) (rec : BamRecord) (pre post : List Cigar)
    (L : Nat) (hc : rec.cigar = pre ++ Cigar.Diff L :: post) :
    (recordRows ctx rec).1 =
      readRowOf ctx rec ::
        ((processOps ctx rec.seq 0 ⟨rec.pos + 1, 1⟩ pre).1 ++
         (mkRow ctx ElementType.DIFF (rec.pos + 1 + refLen pre)
            (rec.pos + 1 + refLen pre + 1)
            (String.mk [charAt rec.seq (queryLen pre)]) ::
          (processOps ctx rec.seq (pre.length + 1)
            ⟨rec.pos + 1 + refLen pre + L, 1 + queryLen pre + L⟩ post).1)) := by
  unfold recordRows
  rw [hc, processOps_append, processOps_st]
  simp only [Nat.zero_add]
  congr 1
  rw [processOps]
  simp only [opRowsUpdates]
  have e : 1 + queryLen pre - 1 = queryLen pre := by omega
  simp [e, Nat.add_comm, Nat.add_assoc, Nat.add_left_comm]

/-- Witness for C5's amended theorem: `2M 1X 1M` at position 100 — the single
mismatch row sits at `[103, 104)` over read offset 2. -/
theorem diff_rows_witness :
    (recordRows ⟨"chr1", true, "q", 0, "rg", "sm"⟩
        ⟨100, [Cigar.Match 2, Cigar.Diff 1, Cigar.Match 1], "ACGT".data, false, "q", 0, none⟩).1 =
      readRowOf ⟨"chr1", true, "q", 0, "rg", "sm"⟩
          ⟨100, [Cigar.Match 2, Cigar.Diff 1, Cigar.Match 1], "ACGT".data, false, "q", 0, none⟩ ::
        ((processOps ⟨"chr1", true, "q", 0, "rg", "sm"⟩ "ACGT".data 0
            ⟨101, 1⟩ [Cigar.Match 2]).1 ++
         (mkRow ⟨"chr1", true, "q", 0, "rg", "sm"⟩ ElementType.DIFF
            (100 + 1 + refLen [Cigar.Match 2]) (100 + 1 + refLen [Cigar.Match 2] + 1)
            (String.mk [charAt "ACGT".data (queryLen [Cigar.Match 2])]) ::
          (processOps ⟨"chr1", true, "q", 0, "rg", "sm"⟩ "ACGT".data
            ([Cigar.Match 2].length + 1)
            ⟨100 + 1 + refLen [Cigar.Match 2] + 1, 1 + queryLen [Cigar.Match 2] + 1⟩
            [Cigar.Match 1]).1)) :=
  diff_rows ⟨"chr1", true, "q", 0, "rg", "sm"⟩
    ⟨100, [Cigar.Match 2, Cigar.Diff 1, Cigar.Match 1], "ACGT".data, false, "q", 0, none⟩
    [Cigar.Match 2] [Cigar.Match 1] 1 rfl

/-- C5 (counterexample): for a `Diff 2` operation the code emits a single
DIFF row, not the per-base two rows the claim requires. -/
theorem diff_rows_counterexample :
    ((recordRows ⟨"chr1", true, "q", 0, "rg", "sm"⟩
        ⟨100, [Cigar.Diff 2], "AC".data, false, "q", 0, none⟩).1.filter
      (fun r => r.etype == ElementType.DIFF)).length ≠ 2 ∧
    ((recordRows ⟨"chr1", true, "q", 0, "rg", "sm"⟩
        ⟨100, [Cigar.Diff 2], "AC".data, false, "q", 0, none⟩).1.filter
      (fun r => r.etype == ElementType.DIFF)).length = 1 := by
  constructor
  · decide
  · rfl

/-! ### C3: the column-width mask

The code keys soft-clip mask entries at the *cursor* `ref_pos` while the
soft-clip rows themselves sit at `adj_ref_pos`; since every soft-clip entry
has value 1 — the mask's own default — the observable `column_width` still
matches the spec's description, which anchors each soft-clip base at the
position it occupies.  The bridge is the fold `wAt` below: entries of value
1 are invisible to a max-fold based at 1, wherever they are keyed. -/

/-- One max-merge step of the column-width fold at position `p`. -/
def stepMax (p : Nat) (acc : Nat) (kv : Nat × Nat) : Nat :=
  if kv.1 = p then max acc kv.2 else acc

/-- The width at position `p` obtained by max-merging a list of mask updates
over a base value `b`. -/
def wAt (updates : List (Nat × Nat)) (p b : Nat) : Nat :=
  updates.foldl (stepMax p) b

/-- The `(reference_start, element length)` pairs of the non-Read rows: the
anchorings the spec describes (each SoftClip row is a single base anchored
at the position it occupies). -/
def specPairs (rows : List Row) : List (Nat × Nat) :=
  rows.filterMap (fun r =>
    if r.etype = ElementType.READ then none
    else some (r.refStart, elemLen r))

/-- The element lengths of all non-Read rows anchored at position `p`. -/
def anchoredLens (rows : List Row) (p : Nat) : List Nat :=
  (rows.filter
    (fun r => r.etype != ElementType.READ && r.refStart == p)).map elemLen

/-- The claim's column-width formula: the maximum element length over all
non-Read elements anchored at `p` (Deletion length = reference span, others
= sequence length), defaulting to 1 at positions with no anchored element. -/
def specWidth (rows : List Row) (p : Nat) : Nat :=
  if (anchoredLens rows p).isEmpty then 1
  else (anchoredLens rows p).foldl max 0

/-- The mask `HashMap` fold agrees with the `wAt` fold, provided every
update value is at least 1 (so an `or_insert` into an absent slot agrees
with `max` over the default 1). -/
theorem maskFold_wAt (U : List (Nat × Nat)) (m : Nat → Option Nat) (p : Nat)
    (hv : ∀ kv ∈ U, 1 ≤ kv.2) :
    ((U.foldl (fun m kv => maskAdd m kv.1 kv.2) m) p).getD 1 =
      wAt U p ((m p).getD 1) := by
  induction U generalizing m with
  | nil => rfl
  | cons kv U ih =>
    rw [List.foldl_cons, ih _ (fun x hx => hv x (List.mem_cons_of_mem kv hx))]
    rw [show wAt (kv :: U) p ((m p).getD 1) =
      wAt U p (stepMax p ((m p).getD 1) kv) from rfl]
    congr 1
    unfold maskAdd stepMax
    by_cases hk : kv.1 = p
    · subst hk
      rw [if_pos rfl, if_pos rfl]
      cases hm : m kv.1 with
      | none =>
        simp [hm, Nat.max_eq_right (hv kv (List.mem_cons_self kv U))]
      | some e => simp [hm]
    · rw [if_neg (fun h => hk h.symm), if_neg hk]

/-- `maskLookup` of the built mask is the `wAt` fold from base 1. -/
theorem maskLookup_wAt (U : List (Nat × Nat)) (p : Nat)
    (hv : ∀ kv ∈ U, 1 ≤ kv.2) :
    maskLookup (maskOf U) p = wAt U p 1 := by
  unfold maskLookup maskOf
  rw [maskFold_wAt U _ p hv]
  rfl

/-- `wAt` over a concatenation is the second fold over the first's result. -/
theorem wAt_append (U V : List (Nat × Nat)) (p b : Nat) :
    wAt (U ++ V) p b = wAt V p (wAt U p b) := by
  unfold wAt
  rw [List.foldl_append]

/-- The `wAt` fold never drops below its base. -/
theorem le_wAt (U : List (Nat × Nat)) (p b : Nat) : b ≤ wAt U p b := by
  induction U generalizing b with
  | nil => exact Nat.le_refl b
  | cons kv U ih =>
    refine Nat.le_trans ?_ (ih (stepMax p b kv))
    unfold stepMax
    by_cases hk : kv.1 = p <;> simp [hk, Nat.le_max_left]

/-- Value-1 updates are invisible to a `wAt` fold based at 1 or above,
whatever their keys. -/
theorem wAt_ones (U : List (Nat × Nat)) (p b : Nat)
    (hU : ∀ kv ∈ U, kv.2 = 1) (hb : 1 ≤ b) :
    wAt U p b = b := by
  induction U with
  | nil => rfl
  | cons kv U ih =>
    rw [wAt, List.foldl_cons]
    have h1 : stepMax p b kv = b := by
      unfold stepMax
      rw [hU kv (List.mem_cons_self kv U)]
      by_cases hk : kv.1 = p <;> simp [hk, Nat.max_eq_left hb]
    rw [h1]
    exact ih (fun x hx => hU x (List.mem_cons_of_mem kv hx))

/-- Two update lists are width-equivalent when their max-folds agree at
every position from every base ≥ 1. -/
def peq (U V : List (Nat × Nat)) : Prop :=
  ∀ p b, 1 ≤ b → wAt U p b = wAt V p b

theorem peq_refl (U : List (Nat × Nat)) : peq U U := fun _ _ _ => rfl

theorem peq_append {U₁ V₁ U₂ V₂ : List (Nat × Nat)} (h₁ : peq U₁ V₁)
    (h₂ : peq U₂ V₂) : peq (U₁ ++ U₂) (V₁ ++ V₂) := by
  intro p b hb
  rw [wAt_append, wAt_append, h₁ p b hb,
    h₂ p (wAt V₁ p b) (Nat.le_trans hb (le_wAt V₁ p b))]

/-- Two all-ones update lists are width-equivalent regardless of keys. -/
theorem peq_ones {U V : List (Nat × Nat)} (hU : ∀ kv ∈ U, kv.2 = 1)
    (hV : ∀ kv ∈ V, kv.2 = 1) : peq U V := by
  intro p b hb
  rw [wAt_ones U p b hU hb, wAt_ones V p b hV hb]

/-- Full-length insertion slices: when the script fits the read, the slice
`[read_pos-1, read_pos-1+len)` has exactly `len` bases. -/
theorem sliceSeq_len (seq : List Char) (rp len : Nat) (hrp : 1 ≤ rp)
    (hq : rp - 1 + len ≤ seq.length) :
    (sliceSeq seq (rp - 1) (rp + len - 1)).length = len := by
  unfold sliceSeq
  rw [List.length_take, List.length_drop]
  omega

/-- Per-operation correspondence: the mask updates of one operation are
width-equivalent to the spec anchorings of its emitted rows, and both carry
values ≥ 1 (soft-clip updates are keyed at the cursor rather than at the
rows' own positions, but all have the invisible value 1). -/
theorem opRowsUpdates_triple (ctx : RowCtx) (seq : List Char)
    (isFirst : Bool) (st : St) (c : Cigar) (hlen : 1 ≤ c.len)
    (hrp : 1 ≤ st.readPos)
    (hq : st.readPos - 1 + c.queryConsumed ≤ seq.length) :
    peq (opRowsUpdates ctx seq isFirst st c).2.1
      (specPairs (opRowsUpdates ctx seq isFirst st c).1) ∧
    (∀ kv ∈ (opRowsUpdates ctx seq isFirst st c).2.1, 1 ≤ kv.2) ∧
    (∀ kv ∈ specPairs (opRowsUpdates ctx seq isFirst st c).1, 1 ≤ kv.2) := by
  cases c with
  | Match len => exact ⟨peq_refl _, by simp [opRowsUpdates], by simp [specPairs, opRowsUpdates]⟩
  | Equal len => exact ⟨peq_refl _, by simp [opRowsUpdates], by simp [specPairs, opRowsUpdates]⟩
  | RefSkip len => exact ⟨peq_refl _, by simp [opRowsUpdates], by simp [specPairs, opRowsUpdates]⟩
  | HardClip len => exact ⟨peq_refl _, by simp [opRowsUpdates], by simp [specPairs, opRowsUpdates]⟩
  | Pad len => exact ⟨peq_refl _, by simp [opRowsUpdates], by simp [specPairs, opRowsUpdates]⟩
  | Ins len =>
    have hs : (sliceSeq seq (st.readPos - 1) (st.readPos + len - 1)).length = len :=
      sliceSeq_len seq st.readPos len hrp hq
    have he : specPairs (opRowsUpdates ctx seq isFirst st (Cigar.Ins len)).1 =
        (opRowsUpdates ctx seq isFirst st (Cigar.Ins len)).2.1 := rfl
    refine ⟨he ▸ peq_refl _, ?_, ?_⟩
    · intro kv hkv
      simp only [opRowsUpdates, List.mem_singleton] at hkv
      subst hkv
      simpa [hs] using hlen
    · rw [he]
      intro kv hkv
      simp only [opRowsUpdates, List.mem_singleton] at hkv
      subst hkv
      simpa [hs] using hlen
  | Del len =>
    have he : specPairs (opRowsUpdates ctx seq isFirst st (Cigar.Del len)).1 =
        [(st.refPos, st.refPos + len - st.refPos)] := rfl
    have he2 : st.refPos + len - st.refPos = len := by omega
    rw [show (opRowsUpdates ctx seq isFirst st (Cigar.Del len)).2.1 =
      [(st.refPos, len)] from rfl, he, he2]
    exact ⟨peq_refl _, by simpa using hlen, by simpa using hlen⟩
  | Diff len =>
    have he : specPairs (opRowsUpdates ctx seq isFirst st (Cigar.Diff len)).1 =
        [(st.refPos, 1)] := rfl
    rw [show (opRowsUpdates ctx seq isFirst st (Cigar.Diff len)).2.1 =
      [(st.refPos, 1)] from rfl, he]
    exact ⟨peq_refl _, by simp, by simp⟩
  | SoftClip len =>
    rw [opRowsUpdates_softclip ctx seq isFirst st len hrp]
    have hmapspec : specPairs ((List.range len).map (fun i =>
        mkRow ctx ElementType.SOFTCLIP
          ((if isFirst then st.refPos - len else st.refPos) + i)
          ((if isFirst then st.refPos - len else st.refPos) + i + 1)
          (String.mk [charAt seq (st.readPos - 1 + i)]))) =
        (List.range len).map (fun i =>
          ((if isFirst then st.refPos - len else st.refPos) + i, 1)) := by
      unfold specPairs
      rw [List.filterMap_map]
      exact List.filterMap_eq_map_iff_forall_eq_some.mpr (fun i _ => rfl)
    rw [hmapspec]
    have hup : ∀ kv ∈ List.replicate len ((st.refPos : Nat), (1 : Nat)),
        kv.2 = 1 := fun kv hkv => by
      rw [List.eq_of_mem_replicate hkv]
    have hsp : ∀ kv ∈ (List.range len).map (fun i =>
        ((if isFirst then st.refPos - len else st.refPos) + i, (1 : Nat))),
        kv.2 = 1 := fun kv hkv => by
      obtain ⟨i, _, hri⟩ := List.mem_map.mp hkv
      rw [← hri]
    refine ⟨peq_ones hup hsp, ?_, ?_⟩
    · intro kv hkv
      rw [hup kv hkv]
    · intro kv hkv
      rw [hsp kv hkv]

/-- `specPairs` distributes over row concatenation. -/
theorem specPairs_append (r₁ r₂ : List Row) :
    specPairs (r₁ ++ r₂) = specPairs r₁ ++ specPairs r₂ := by
  unfold specPairs
  rw [List.filterMap_append]

/-- The whole-walk correspondence: over a well-formed script (positive
operation lengths, query consumption within the read), the accumulated mask
updates are width-equivalent to the spec anchorings of the emitted rows,
with all values ≥ 1. -/
theorem processOps_triple (ctx : RowCtx) (seq : List Char) (idx : Nat)
    (st : St) (l : List Cigar) (hlen : ∀ c ∈ l, 1 ≤ c.len)
    (hrp : 1 ≤ st.readPos)
    (hq : st.readPos - 1 + queryLen l ≤ seq.length) :
    peq (processOps ctx seq idx st l).2.1
      (specPairs (processOps ctx seq idx st l).1) ∧
    (∀ kv ∈ (processOps ctx seq idx st l).2.1, 1 ≤ kv.2) ∧
    (∀ kv ∈ specPairs (processOps ctx seq idx st l).1, 1 ≤ kv.2) := by
  induction l generalizing idx st with
  | nil => exact ⟨peq_refl _, by simp [processOps], by simp [processOps, specPairs]⟩
  | cons c cs ih =>
    have hql : queryLen (c :: cs) = c.queryConsumed + queryLen cs := by
      simp [queryLen]
    have hc1 : 1 ≤ c.len := hlen c (List.mem_cons_self c cs)
    have hqc : st.readPos - 1 + c.queryConsumed ≤ seq.length := by omega
    have htrip := opRowsUpdates_triple ctx seq (idx == 0) st c hc1 hrp hqc
    have hih := ih (idx + 1) (opRowsUpdates ctx seq (idx == 0) st c).2.2
      (fun x hx => hlen x (List.mem_cons_of_mem c hx))
      (by rw [opRowsUpdates_st]
          show 1 ≤ st.readPos + c.queryConsumed
          omega)
      (by rw [opRowsUpdates_st]
          show st.readPos + c.queryConsumed - 1 + queryLen cs ≤ seq.length
          omega)
    refine ⟨?_, ?_, ?_⟩
    · show peq ((opRowsUpdates ctx seq (idx == 0) st c).2.1 ++
          (processOps ctx seq (idx + 1)
            (opRowsUpdates ctx seq (idx == 0) st c).2.2 cs).2.1)
        (specPairs ((opRowsUpdates ctx seq (idx == 0) st c).1 ++
          (processOps ctx seq (idx + 1)
            (opRowsUpdates ctx seq (idx == 0) st c).2.2 cs).1))
      rw [specPairs_append]
      exact peq_append htrip.1 hih.1
    · intro kv hkv
      rcases List.mem_append.mp hkv with hm | hm
      · exact htrip.2.1 kv hm
      · exact hih.2.1 kv hm
    · intro kv hkv
      rw [show specPairs (processOps ctx seq idx st (c :: cs)).1 =
          specPairs (opRowsUpdates ctx seq (idx == 0) st c).1 ++
          specPairs (processOps ctx seq (idx + 1)
            (opRowsUpdates ctx seq (idx == 0) st c).2.2 cs).1 from
        specPairs_append .. ] at hkv
      rcases List.mem_append.mp hkv with hm | hm
      · exact htrip.2.2 kv hm
      · exact hih.2.2 kv hm

/-- Per-record version of the correspondence: the Read row heading the
record's block is invisible to `specPairs`. -/
theorem recordRows_triple (ctx : RowCtx) (rec : BamRecord)
    (hlen : ∀ c ∈ rec.cigar, 1 ≤ c.len)
    (hq : queryLen rec.cigar ≤ rec.seq.length) :
    peq (recordRows ctx rec).2 (specPairs (recordRows ctx rec).1) ∧
    (∀ kv ∈ (recordRows ctx rec).2, 1 ≤ kv.2) ∧
    (∀ kv ∈ specPairs (recordRows ctx rec).1, 1 ≤ kv.2) :=
  processOps_triple ctx rec.seq 0 ⟨rec.pos + 1, 1⟩ rec.cigar hlen
    (Nat.le_refl 1)
    (by show 1 - 1 + queryLen rec.cigar ≤ rec.seq.length
        omega)

/-- Batch version over all extracted records. -/
theorem extractBlocks_triple (rgSmMap : List (String × String))
    (contig : String) (recs : List BamRecord)
    (blocks : List (List Row × List (Nat × Nat)))
    (hwf : ∀ rec ∈ recs, (∀ c ∈ rec.cigar, 1 ≤ c.len) ∧
      queryLen rec.cigar ≤ rec.seq.length)
    (hx : extractBlocks rgSmMap contig recs = some blocks) :
    peq ((blocks.map Prod.snd).flatten)
      (specPairs ((blocks.map Prod.fst).flatten)) ∧
    (∀ kv ∈ (blocks.map Prod.snd).flatten, 1 ≤ kv.2) ∧
    (∀ kv ∈ specPairs ((blocks.map Prod.fst).flatten), 1 ≤ kv.2) := by
  induction recs generalizing blocks with
  | nil =>
    rw [show extractBlocks rgSmMap contig [] = some [] from rfl] at hx
    injection hx with hx
    subst hx
    exact ⟨peq_refl _, by simp, by simp [specPairs]⟩
  | cons rec rest ih =>
    rw [show extractBlocks rgSmMap contig (rec :: rest) =
        (match resolveRGSM rgSmMap rec.rg with
         | none => none
         | some rgsm =>
           match extractBlocks rgSmMap contig rest with
           | none => none
           | some bs =>
             some (recordRows ⟨contig, !rec.isReverse, rec.qname, rec.hp,
               rgsm.1, rgsm.2⟩ rec :: bs)) from rfl] at hx
    cases hres : resolveRGSM rgSmMap rec.rg with
    | none => rw [hres] at hx; exact absurd hx (by simp)
    | some rgsm =>
      rw [hres] at hx
      cases hrest : extractBlocks rgSmMap contig rest with
      | none => rw [hrest] at hx; exact absurd hx (by simp)
      | some bs =>
        rw [hrest] at hx
        injection hx with hx
        subst hx
        have hw := hwf rec (List.mem_cons_self rec rest)
        have hrec := recordRows_triple
          ⟨contig, !rec.isReverse, rec.qname, rec.hp, rgsm.1, rgsm.2⟩ rec
          hw.1 hw.2
        have hbs := ih bs
          (fun r hr => hwf r (List.mem_cons_of_mem rec hr)) hrest
        simp only [List.map_cons, List.flatten_cons]
        refine ⟨?_, ?_, ?_⟩
        · rw [specPairs_append]
          exact peq_append hrec.1 hbs.1
        · intro kv hkv
          rcases List.mem_append.mp hkv with hm | hm
          · exact hrec.2.1 kv hm
          · exact hbs.2.1 kv hm
        · intro kv hkv
          rw [specPairs_append] at hkv
          rcases List.mem_append.mp hkv with hm | hm
          · exact hrec.2.2 kv hm
          · exact hbs.2.2 kv hm

/-- `wAt` over the spec anchorings is the max-fold of the lengths anchored
at the position. -/
theorem wAt_specPairs (rows : List Row) (p b : Nat) :
    wAt (specPairs rows) p b = (anchoredLens rows p).foldl max b := by
  induction rows generalizing b with
  | nil => rfl
  | cons r rows ih =>
    by_cases hty : r.etype = ElementType.READ
    · have h1 : specPairs (r :: rows) = specPairs rows := by
        unfold specPairs
        rw [List.filterMap_cons, if_pos hty]
      have h2 : anchoredLens (r :: rows) p = anchoredLens rows p := by
        unfold anchoredLens
        rw [List.filter_cons, if_neg (by simp [hty])]
      rw [h1, h2, ih]
    · have h1 : specPairs (r :: rows) =
          (r.refStart, elemLen r) :: specPairs rows := by
        unfold specPairs
        rw [List.filterMap_cons, if_neg hty]
      by_cases hp : r.refStart = p
      · have h2 : anchoredLens (r :: rows) p = elemLen r :: anchoredLens rows p := by
          unfold anchoredLens
          rw [List.filter_cons, if_pos (by simp [hty, hp])]
          rfl
        rw [h1, h2]
        show wAt (specPairs rows) p (stepMax p b (r.refStart, elemLen r)) = _
        rw [show stepMax p b (r.refStart, elemLen r) = max b (elemLen r) from
          by unfold stepMax; rw [if_pos hp], ih]
        rfl
      · have h2 : anchoredLens (r :: rows) p = anchoredLens rows p := by
          unfold anchoredLens
          rw [List.filter_cons, if_neg (by simp [hp])]
        rw [h1, h2]
        show wAt (specPairs rows) p (stepMax p b (r.refStart, elemLen r)) = _
        rw [show stepMax p b (r.refStart, elemLen r) = b from
          by unfold stepMax; rw [if_neg hp], ih]

/-- Every anchored length at `p` arises from a spec anchoring pair at `p`. -/
theorem mem_anchoredLens (rows : List Row) (p x : Nat)
    (hx : x ∈ anchoredLens rows p) : (p, x) ∈ specPairs rows := by
  unfold anchoredLens at hx
  obtain ⟨r, hr, hre⟩ := List.mem_map.mp hx
  obtain ⟨hrows, hcond⟩ := List.mem_filter.mp hr
  obtain ⟨hne, heq⟩ := Bool.and_eq_true .. ▸ hcond
  have hp : r.refStart = p := by simpa using heq
  refine List.mem_filterMap.mpr ⟨r, hrows, ?_⟩
  rw [if_neg (by simpa using hne), hp, hre]

/-- A max-fold of values ≥ 1 from base 1 matches the claim's
"max length, defaulting to 1 when no element is anchored". -/
theorem foldl_max_one (L : List Nat) (hv : ∀ x ∈ L, 1 ≤ x) :
    L.foldl max 1 = if L.isEmpty then 1 else L.foldl max 0 := by
  cases L with
  | nil => rfl
  | cons x xs =>
    simp only [List.isEmpty_cons, if_neg]
    rw [List.foldl_cons, List.foldl_cons,
      Nat.max_eq_right (hv x (List.mem_cons_self x xs)), Nat.zero_max]
    simp

/-- C3: in the table returned by `extract_reads` over well-formed records
(positive operation lengths, query consumption within each read), every
row's `column_width` equals the claim's formula: the maximum element length
over all non-Read elements anchored at the row's `reference_start` (a
Deletion's length its reference span, others their sequence length, each
SoftClip row a single base anchored at the position it occupies), and 1 at
positions with no anchored element. -/
theorem column_width_matches_spec (rgSmMap : List (String × String))
    (contig : String) (recs : List BamRecord) (out : List (Row × Nat))
    (hwf : ∀ rec ∈ recs, (∀ c ∈ rec.cigar, 1 ≤ c.len) ∧
      queryLen rec.cigar ≤ rec.seq.length)
    (hx : extract_reads rgSmMap contig recs = some out) :
    ∀ rw ∈ out, rw.2 = specWidth (out.map Prod.fst) rw.1.refStart := by
  unfold extract_reads at hx
  cases hB : extractBlocks rgSmMap contig recs with
  | none => rw [hB] at hx; exact absurd hx (by simp)
  | some blocks =>
    rw [hB] at hx
    injection hx with hx
    subst hx
    have htrip := extractBlocks_triple rgSmMap contig recs blocks hwf hB
    have hmfst : (((blocks.map Prod.fst).flatten).map
        (fun r => (r, maskLookup (maskOf ((blocks.map Prod.snd).flatten))
          r.refStart))).map Prod.fst = (blocks.map Prod.fst).flatten := by
      rw [List.map_map]
      have h1 : List.map (Prod.fst ∘ fun r : Row => (r, maskLookup
          (maskOf ((blocks.map Prod.snd).flatten)) r.refStart))
          ((blocks.map Prod.fst).flatten) =
          List.map id ((blocks.map Prod.fst).flatten) :=
        List.map_congr_left (fun a _ => rfl)
      rw [h1, List.map_id]
    intro rw hrw
    obtain ⟨r, hr, hre⟩ := List.mem_map.mp hrw
    subst hre
    rw [hmfst]
    show maskLookup (maskOf ((blocks.map Prod.snd).flatten)) r.refStart =
      specWidth ((blocks.map Prod.fst).flatten) r.refStart
    rw [maskLookup_wAt _ r.refStart htrip.2.1,
      htrip.1 r.refStart 1 (Nat.le_refl 1),
      wAt_specPairs ((blocks.map Prod.fst).flatten) r.refStart 1,
      foldl_max_one _ (fun x hxm => htrip.2.2 (r.refStart, x)
        (mem_anchoredLens _ _ _ hxm))]
    rfl

/-- A concrete forward record `2S 3M 1X 2D 2I 1M` at position 100 in read
group `rg1`, used to witness the column-width claim. -/
def recA : BamRecord :=
  ⟨100, [.SoftClip 2, .Match 3, .Diff 1, .Del 2, .Ins 2, .Match 1],
   "ACGTTGCAA".data, false, "q1", 0, some "rg1"⟩

/-- A concrete record `1M 4I 2M` at position 103 without a read group; its
4-base insertion anchors at position 104 and widens that column. -/
def recB : BamRecord :=
  ⟨103, [.Match 1, .Ins 4, .Match 2], "AAACCCC".data, false, "q2", 0, none⟩

/-- Witness for C3: in the extraction of `recA` and `recB`, the mismatch row
of `recA` at position 104 (row index 3) carries `column_width` 4 — the
length of `recB`'s insertion anchored there — matching the spec formula. -/
theorem column_width_matches_spec_witness :
    (((extract_reads [("rg1", "s1")] "chr1" [recA, recB]).getD []).getD 3
        (⟨"", 0, 0, true, "", 0, "", "", ElementType.READ, ""⟩, 0)).2 =
      specWidth
        (((extract_reads [("rg1", "s1")] "chr1" [recA, recB]).getD []).map
          Prod.fst)
        ((((extract_reads [("rg1", "s1")] "chr1" [recA, recB]).getD []).getD 3
          (⟨"", 0, 0, true, "", 0, "", "", ElementType.READ, ""⟩, 0)).1.refStart) :=
  column_width_matches_spec [("rg1", "s1")] "chr1" [recA, recB]
    ((extract_reads [("rg1", "s1")] "chr1" [recA, recB]).getD [])
    (by decide) (by rfl) _ (by decide)

end Genomeshader
